import Mathlib

/-!
Verification of the detection-to-track association engine
(`src/backend/tracker.py`, class `SimpleSortTracker` and function `iou`).

The Python code is shallowly embedded: boxes carry integer coordinates
(the source annotates `Tuple[int, int, int, int]`), scores and the
configuration thresholds are rationals (idealising Python floats by exact
arithmetic), and `tuple(int(v) for v in smoothed.tolist())` is modelled by
truncation toward zero on rationals.  Detection dictionaries access
`label` and `score` through `dict.get` with defaults, so those fields are
`Option`-valued; `det["bbox"]` is a mandatory key, modelled separately by
`RawDet` / `updateE` where its absence is a `KeyError`.
-/

namespace Tracker

/-- An axis-aligned box `(x1, y1, x2, y2)`, integer coordinates as in the
source type annotations. -/
@[ext]
structure Box where
  x1 : ℤ
  y1 : ℤ
  x2 : ℤ
  y2 : ℤ
deriving DecidableEq

/-- A detection as consumed by `SimpleSortTracker.update`: the `bbox` key is
always read with `det["bbox"]`, while `label` and `score` are read with
`det.get(..., default)`, hence optional here. -/
structure Det where
  bbox : Box
  label : Option String
  score : Option ℚ
deriving DecidableEq

/-- A track dictionary as built by `SimpleSortTracker._new_track`. -/
@[ext]
structure Track where
  id : ℕ
  bbox : Box
  label : String
  score : ℚ
  age : ℤ
  time_since_update : ℤ
deriving DecidableEq

/-- The mutable state of one `SimpleSortTracker` instance together with its
constructor configuration. -/
structure TrackerState where
  max_age : ℤ
  min_iou : ℚ
  smoothing : ℚ
  next_id : ℕ
  tracks : List Track
deriving DecidableEq

/-- `SimpleSortTracker.__init__(max_age, min_iou, smoothing)`. -/
def init (max_age : ℤ) (min_iou smoothing : ℚ) : TrackerState :=
  { max_age := max_age
    min_iou := min_iou
    smoothing := smoothing
    next_id := 1
    tracks := [] }

/-- Intersection-over-union of two boxes, translated from `iou` in
`tracker.py`.  Integer intersection and areas, exact rational quotient. -/
def iou (b1 b2 : Box) : ℚ :=
  let x1 := max b1.x1 b2.x1
  let y1 := max b1.y1 b2.y1
  let x2 := min b1.x2 b2.x2
  let y2 := min b1.y2 b2.y2
  let inter_w := max 0 (x2 - x1)
  let inter_h := max 0 (y2 - y1)
  let inter := inter_w * inter_h
  if inter ≤ 0 then 0
  else
    let area1 := (b1.x2 - b1.x1) * (b1.y2 - b1.y1)
    let area2 := (b2.x2 - b2.x1) * (b2.y2 - b2.y1)
    let union := area1 + area2 - inter
    if union ≤ 0 then 0 else (inter : ℚ) / (union : ℚ)

/-- Truncation toward zero, the behaviour of Python `int()` on a float. -/
def truncQ (q : ℚ) : ℤ :=
  if 0 ≤ q then ⌊q⌋ else ⌈q⌉

/-- One component of `(1.0 - alpha) * old_box + alpha * new_box` followed by
`int(v)`. -/
def blendC (alpha : ℚ) (o n : ℤ) : ℤ :=
  truncQ ((1 - alpha) * (o : ℚ) + alpha * (n : ℚ))

/-- `tuple(int(v) for v in smoothed.tolist())` for the smoothed box. -/
def blendBox (alpha : ℚ) (o n : Box) : Box :=
  { x1 := blendC alpha o.x1 n.x1
    y1 := blendC alpha o.y1 n.y1
    x2 := blendC alpha o.x2 n.x2
    y2 := blendC alpha o.y2 n.y2 }

/-- The in-place mutation of a matched track (`tracker.py` lines 111-120):
smoothed bbox, label and score from the detection with the previous values
as `dict.get` defaults, `time_since_update` reset to `0`. -/
def applyMatch (alpha : ℚ) (tr : Track) (det : Det) : Track :=
  { tr with
    bbox := blendBox alpha tr.bbox det.bbox
    label := det.label.getD tr.label
    score := det.score.getD tr.score
    time_since_update := 0 }

/-- `SimpleSortTracker._new_track`. -/
def newTrack (id : ℕ) (det : Det) : Track :=
  { id := id
    bbox := det.bbox
    label := det.label.getD "object"
    score := det.score.getD 0
    age := 1
    time_since_update := 0 }

/-- The aging loop at the top of `update`: `tr["age"] += 1;
tr["time_since_update"] += 1`. -/
def ageTrack (tr : Track) : Track :=
  { tr with age := tr.age + 1, time_since_update := tr.time_since_update + 1 }

/-- The sort key `lambda d: d.get("score", 0.0)`. -/
def detKey (d : Det) : ℚ :=
  d.score.getD 0

/-- `sorted(xs, key=k, reverse=True)`: the stable descending sort by `k`,
realised as insertion sort placing an element before the first existing
element whose key is less than or equal to its own. -/
def sortDesc (k : α → ℚ) (l : List α) : List α :=
  l.insertionSort fun a b => k b ≤ k a

/-- The inner loop of greedy matching (`tracker.py` lines 101-107): scan the
track list from index `tIdx`, skipping indices in `used`, keeping the first
strictly-greatest overlap seen so far in the accumulator
`(best_iou, best_t_idx)`. -/
def bestScan (used : List ℕ) (dbox : Box) :
    ℕ → List Track → ℚ × Option ℕ → ℚ × Option ℕ
  | _, [], acc => acc
  | tIdx, tr :: rest, acc =>
    let acc' :=
      if tIdx ∈ used then acc
      else if acc.1 < iou tr.bbox dbox then (iou tr.bbox dbox, some tIdx) else acc
    bestScan used dbox (tIdx + 1) rest acc'

/-- The inner loop started with `best_iou = 0.0`, `best_t_idx = None`. -/
def bestMatch (used : List ℕ) (dbox : Box) (tracks : List Track) : ℚ × Option ℕ :=
  bestScan used dbox 0 tracks (0, none)

/-- One iteration of the outer greedy-matching loop for the detection at
sorted position `p.1`: commit the pairing exactly when a best track index
was found and its overlap is at least `min_iou` (`tracker.py` lines
98-123).  The accumulator carries
`(self.tracks, used_track_indices, used_det_indices)`. -/
def matchStep (mi alpha : ℚ) (acc : List Track × List ℕ × List ℕ) (p : ℕ × Det) :
    List Track × List ℕ × List ℕ :=
  let best := bestMatch acc.2.1 p.2.bbox acc.1
  match best.2 with
  | none => acc
  | some tIdx =>
    if mi ≤ best.1 then
      match acc.1.get? tIdx with
      | none => acc
      | some tr => (acc.1.set tIdx (applyMatch alpha tr p.2), tIdx :: acc.2.1, p.1 :: acc.2.2)
    else acc

/-- The outer greedy-matching loop over the score-sorted detections,
enumerated from index `dIdx`. -/
def matchLoop (mi alpha : ℚ) :
    ℕ → List Det → List Track × List ℕ × List ℕ → List Track × List ℕ × List ℕ
  | _, [], acc => acc
  | dIdx, d :: ds, acc => matchLoop mi alpha (dIdx + 1) ds (matchStep mi alpha acc (dIdx, d))

/-- The second loop of `update` (lines 126-129): every sorted detection whose
index is not in `used_det_indices` spawns a new track; the accumulator is
`(self.tracks, self._next_id)`. -/
def spawnLoop (usedD : List ℕ) : ℕ → List Det → List Track × ℕ → List Track × ℕ
  | _, [], acc => acc
  | dIdx, d :: ds, acc =>
    spawnLoop usedD (dIdx + 1) ds
      (if dIdx ∈ usedD then acc else (acc.1 ++ [newTrack acc.2 d], acc.2 + 1))

/-- `SimpleSortTracker.update`, returning the successor state and the
returned list of live tracks. -/
def update (s : TrackerState) (dets : List Det) : TrackerState × List Track :=
  let aged := s.tracks.map ageTrack
  if dets.isEmpty then
    let pruned := aged.filter fun tr => tr.time_since_update ≤ s.max_age
    ({ s with tracks := pruned }, pruned)
  else
    let ds := sortDesc detKey dets
    let m := matchLoop s.min_iou s.smoothing 0 ds (aged, [], [])
    let sp := spawnLoop m.2.2 0 ds (m.1, s.next_id)
    let pruned := sp.1.filter fun tr => tr.time_since_update ≤ s.max_age
    ({ s with tracks := pruned, next_id := sp.2 }, pruned)

/-- A raw detection dictionary in which even the `bbox` key may be absent. -/
structure RawDet where
  bbox : Option Box
  label : Option String
  score : Option ℚ
deriving DecidableEq

/-- Reading the mandatory `bbox` key of a raw detection. -/
def parseDet (d : RawDet) : Option Det :=
  d.bbox.map fun b => { bbox := b, label := d.label, score := d.score }

/-- Reading the `bbox` keys of a whole detection list; `none` as soon as
one is absent. -/
def parseDets : List RawDet → Option (List Det)
  | [] => some []
  | rd :: rest =>
    match parseDet rd, parseDets rest with
    | some d, some ds => some (d :: ds)
    | _, _ => none

/-- `update` on raw detections.  Every detection lacking the `bbox` key makes
the Python call raise `KeyError` (an unmatched one reaches
`tuple(det["bbox"])` inside `_new_track`, a compared one reaches
`det["bbox"]` at the `iou` call), modelled as `Except.error ()`. -/
def updateE (s : TrackerState) (rdets : List RawDet) :
    Except Unit (TrackerState × List Track) :=
  match parseDets rdets with
  | some dets => .ok (update s dets)
  | none => .error ()

/-- Iterated ticks: the engine state after feeding the detection lists of
`seqs` in order. -/
def runSeq (s : TrackerState) : List (List Det) → TrackerState
  | [] => s
  | ds :: rest => runSeq (update s ds).1 rest

/-- The `used_track_indices` produced by the matching phase of one tick. -/
def matchedIdxs (s : TrackerState) (dets : List Det) : List ℕ :=
  if dets.isEmpty then []
  else
    (matchLoop s.min_iou s.smoothing 0 (sortDesc detKey dets)
      (s.tracks.map ageTrack, [], [])).2.1

/-- The ids of the tracks claimed by some detection during one tick. -/
def matchedIds (s : TrackerState) (dets : List Det) : List ℕ :=
  (matchedIdxs s dets).filterMap fun t => (s.tracks.get? t).map Track.id

/-- The track with id `i` is claimed in none of the consecutive ticks of
`seqs` starting from state `s`. -/
def UnmatchedRun (i : ℕ) : TrackerState → List (List Det) → Prop
  | _, [] => True
  | s, ds :: rest => i ∉ matchedIds s ds ∧ UnmatchedRun i (update s ds).1 rest

instance UnmatchedRun.instDecidable (i : ℕ) :
    (s : TrackerState) → (l : List (List Det)) → Decidable (UnmatchedRun i s l)
  | _, [] => isTrue trivial
  | s, ds :: rest =>
    haveI := UnmatchedRun.instDecidable i (update s ds).1 rest
    inferInstanceAs (Decidable (_ ∧ _))

/-- State invariant: track ids are strictly increasing along the list (the
list order is creation order) and below the id counter. -/
def Inv (s : TrackerState) : Prop :=
  (s.tracks.map Track.id).Pairwise (· < ·) ∧ ∀ tr ∈ s.tracks, tr.id < s.next_id

instance (s : TrackerState) : Decidable (Inv s) :=
  inferInstanceAs (Decidable (_ ∧ _))

/-- The largest overlap between a detection box and the not-yet-claimed
tracks listed from index `j` on, floored at `0` (the loop's starting
`best_iou`); written from the wording of the matcher contract for
comparison with `bestMatch`. -/
def maxOverlapFrom (used : List ℕ) (dbox : Box) : ℕ → List Track → ℚ
  | _, [] => 0
  | j, tr :: rest =>
    if j ∈ used then maxOverlapFrom used dbox (j + 1) rest
    else max (iou tr.bbox dbox) (maxOverlapFrom used dbox (j + 1) rest)

/-- The maximum overlap between a detection box and any not-yet-claimed
track, `0` when there is none. -/
def maxOverlap (tracks : List Track) (used : List ℕ) (dbox : Box) : ℚ :=
  maxOverlapFrom used dbox 0 tracks

/-- Ranking key as the spec's words describe it: scores outside `[0, 1]`
are replaced by `0.0` for ordering.  Written from the spec, for comparison
with the source's `detKey`. -/
def claimKey (d : Det) : ℚ :=
  let k := d.score.getD 0
  if 0 ≤ k ∧ k ≤ 1 then k else 0

/-- The greedy-matching result of one non-empty tick. -/
def tickMatch (s : TrackerState) (dets : List Det) :
    List Track × List ℕ × List ℕ :=
  matchLoop s.min_iou s.smoothing 0 (sortDesc detKey dets)
    (s.tracks.map ageTrack, [], [])

/-- The track list and id counter after the spawning phase of one
non-empty tick. -/
def tickSpawn (s : TrackerState) (dets : List Det) : List Track × ℕ :=
  spawnLoop (tickMatch s dets).2.2 0 (sortDesc detKey dets)
    ((tickMatch s dets).1, s.next_id)

/-- `x2 ≤ x1` or `y2 ≤ y1`: a box with no positive extent. -/
def Degenerate (b : Box) : Prop :=
  b.x2 ≤ b.x1 ∨ b.y2 ≤ b.y1

instance (b : Box) : Decidable (Degenerate b) :=
  inferInstanceAs (Decidable (_ ∨ _))

/-- Order required of an indexed element pair after a stable descending
sort: strictly larger key first, equal keys in original index order. -/
def StableKey (k : α → ℚ) (a b : ℕ × α) : Prop :=
  k b.2 < k a.2 ∨ (k a.2 = k b.2 ∧ a.1 < b.1)

/-! The invariant carried by the inner greedy-matching scan.  `idx` is the
index about to be scanned; the accumulator is the running
`(best_iou, best_t_idx)` pair. -/

/-! Concrete instances used by witnesses and counterexamples. -/

/-- A session state with one live track of id `1` on the unit-decade box,
`max_age = 1`. -/
def wStateA : TrackerState :=
  ⟨1, 3/10, 1/2, 2, [⟨1, ⟨0, 0, 10, 10⟩, "a", 1, 1, 0⟩]⟩

/-- A session state with one live track of id `1` on the unit-decade box,
`max_age = 10`. -/
def wStateB : TrackerState :=
  ⟨10, 3/10, 1/2, 2, [⟨1, ⟨0, 0, 10, 10⟩, "a", 1, 1, 0⟩]⟩

/-- The aged copy of the track of `wStateB` after one empty tick. -/
def wTrackAged : Track :=
  ⟨1, ⟨0, 0, 10, 10⟩, "a", 1, 2, 1⟩

/-- Two distinct tracks occupying the same box, for overlap ties. -/
def wTracksTie : List Track :=
  [⟨1, ⟨0, 0, 10, 10⟩, "a", 1, 1, 0⟩, ⟨2, ⟨0, 0, 10, 10⟩, "b", 1, 1, 0⟩]

/-- The live track of the smoothing counterexample. -/
def cexTrackC1 : Track :=
  ⟨1, ⟨0, 0, 10, 10⟩, "obj", 9/10, 1, 0⟩

/-- A session holding `cexTrackC1`, `smoothing = 1/2`. -/
def cexStateC1 : TrackerState :=
  ⟨10, 3/10, 1/2, 2, [cexTrackC1]⟩

/-- A detection overlapping `cexTrackC1` with every coordinate shifted by
one pixel. -/
def cexDetC1 : Det :=
  ⟨⟨1, 1, 11, 11⟩, some "obj", some (9/10)⟩

/-- A session with `min_iou = 0` and one live track. -/
def cexStateC2 : TrackerState :=
  ⟨10, 0, 1/2, 2, [⟨1, ⟨0, 0, 10, 10⟩, "a", 1, 1, 0⟩]⟩

/-- A detection disjoint from the track of `cexStateC2`. -/
def cexDetC2 : Det :=
  ⟨⟨20, 20, 30, 30⟩, some "b", some 1⟩

/-- A detection with an in-range score. -/
def cexDetLow : Det :=
  ⟨⟨0, 0, 1, 1⟩, none, some (9/10)⟩

/-- A detection whose score `5.0` is outside `[0, 1]`. -/
def cexDetHigh : Det :=
  ⟨⟨2, 2, 3, 3⟩, none, some 5⟩

/-- A detection with an out-of-range score sitting exactly on the box of
the track of `wStateB`. -/
def wDetBig : Det :=
  ⟨⟨0, 0, 10, 10⟩, some "a", some 5⟩

def ScanInv (used : List ℕ) (dbox : Box) (tks : List Track) (idx : ℕ)
    (acc : ℚ × Option ℕ) : Prop :=
  0 ≤ acc.1 ∧
  (acc.2 = none → acc.1 = 0) ∧
  (∀ t, acc.2 = some t →
    t < idx ∧ t ∉ used ∧ ∃ tr, tks.get? t = some tr ∧ iou tr.bbox dbox = acc.1 ∧ 0 < acc.1) ∧
  (∀ j tr, j < idx → j ∉ used → tks.get? j = some tr → iou tr.bbox dbox ≤ acc.1) ∧
  (∀ j tr t, acc.2 = some t → j < t → j ∉ used → tks.get? j = some tr →
    iou tr.bbox dbox < acc.1)

/-! Basic facts about truncation and the smoothing blend. -/

theorem truncQ_intCast (n : ℤ) : truncQ (n : ℚ) = n := by
  unfold truncQ
  split <;> simp

theorem blendC_one (o n : ℤ) : blendC 1 o n = n := by
  have : ((1 : ℚ) - 1) * (o : ℚ) + 1 * (n : ℚ) = (n : ℚ) := by ring
  rw [blendC, this, truncQ_intCast]

theorem blendC_zero (o n : ℤ) : blendC 0 o n = o := by
  have : ((1 : ℚ) - 0) * (o : ℚ) + 0 * (n : ℚ) = (o : ℚ) := by ring
  rw [blendC, this, truncQ_intCast]

theorem blendBox_one (o n : Box) : blendBox 1 o n = n := by
  ext <;> simp [blendBox, blendC_one]

theorem blendBox_zero (o n : Box) : blendBox 0 o n = o := by
  ext <;> simp [blendBox, blendC_zero]


theorem ScanInv.step {used : List ℕ} {dbox : Box} {tks : List Track} {idx : ℕ}
    {acc : ℚ × Option ℕ} {tr : Track} (htk : tks.get? idx = some tr)
    (h : ScanInv used dbox tks idx acc) :
    ScanInv used dbox tks (idx + 1)
      (if idx ∈ used then acc
       else if acc.1 < iou tr.bbox dbox then (iou tr.bbox dbox, some idx) else acc) := by
  obtain ⟨h0, hnone, hsome, hdom, hstrict⟩ := h
  by_cases hu : idx ∈ used
  · rw [if_pos hu]
    refine ⟨h0, hnone, ?_, ?_, ?_⟩
    · intro t ht
      obtain ⟨h1, h2, h3⟩ := hsome t ht
      exact ⟨Nat.lt_succ_of_lt h1, h2, h3⟩
    · intro j tr' hj hju hget
      rcases Nat.lt_succ_iff_lt_or_eq.mp hj with hj' | rfl
      · exact hdom j tr' hj' hju hget
      · exact absurd hu hju
    · exact hstrict
  · by_cases hlt : acc.1 < iou tr.bbox dbox
    · rw [if_neg hu, if_pos hlt]
      refine ⟨?_, ?_, ?_, ?_, ?_⟩
      · exact le_of_lt (lt_of_le_of_lt h0 hlt)
      · intro hc; cases hc
      · intro t ht
        cases ht
        exact ⟨Nat.lt_succ_self idx, hu, tr, htk, rfl, lt_of_le_of_lt h0 hlt⟩
      · intro j tr' hj hju hget
        rcases Nat.lt_succ_iff_lt_or_eq.mp hj with hj' | rfl
        · exact le_of_lt (lt_of_le_of_lt (hdom j tr' hj' hju hget) hlt)
        · rw [htk] at hget; cases hget; exact le_refl _
      · intro j tr' t ht hjt hju hget
        cases ht
        exact lt_of_le_of_lt (hdom j tr' hjt hju hget) hlt
    · rw [if_neg hu, if_neg hlt]
      refine ⟨h0, hnone, ?_, ?_, ?_⟩
      · intro t ht
        obtain ⟨h1, h2, h3⟩ := hsome t ht
        exact ⟨Nat.lt_succ_of_lt h1, h2, h3⟩
      · intro j tr' hj hju hget
        rcases Nat.lt_succ_iff_lt_or_eq.mp hj with hj' | rfl
        · exact hdom j tr' hj' hju hget
        · rw [htk] at hget; cases hget; exact not_lt.mp hlt
      · intro j tr' t ht hjt hju hget
        have hti := (hsome t ht).1
        exact hstrict j tr' t ht hjt hju hget


theorem bestScan_inv (used : List ℕ) (dbox : Box) (tks : List Track) :
    ∀ (rest : List Track) (idx : ℕ) (acc : ℚ × Option ℕ),
      (∀ off, rest.get? off = tks.get? (idx + off)) →
      ScanInv used dbox tks idx acc →
      ScanInv used dbox tks (idx + rest.length) (bestScan used dbox idx rest acc)
  | [], idx, acc, _, h => by simpa using h
  | tr :: rest, idx, acc, hoff, h => by
    have htk : tks.get? idx = some tr := by simpa using (hoff 0).symm
    have hoff' : ∀ off, rest.get? off = tks.get? (idx + 1 + off) := by
      intro off
      have := hoff (off + 1)
      simpa [Nat.add_assoc, Nat.add_comm 1 off] using this
    have hstep := ScanInv.step htk h
    have hrec := bestScan_inv used dbox tks rest (idx + 1) _ hoff' hstep
    have hlen : idx + 1 + rest.length = idx + (tr :: rest).length := by
      simp [List.length_cons]; omega
    rw [hlen] at hrec
    simpa [bestScan] using hrec

/-- Summary of the inner scan: `bestMatch` returns the maximum overlap over
the unclaimed tracks together with the first index attaining it, `none`
when every unclaimed overlap is zero. -/
theorem bestMatch_spec (used : List ℕ) (dbox : Box) (tks : List Track) :
    0 ≤ (bestMatch used dbox tks).1 ∧
    ((bestMatch used dbox tks).2 = none → (bestMatch used dbox tks).1 = 0) ∧
    (∀ t, (bestMatch used dbox tks).2 = some t →
      t ∉ used ∧ ∃ tr, tks.get? t = some tr ∧
        iou tr.bbox dbox = (bestMatch used dbox tks).1 ∧ 0 < (bestMatch used dbox tks).1) ∧
    (∀ j tr, j ∉ used → tks.get? j = some tr →
      iou tr.bbox dbox ≤ (bestMatch used dbox tks).1) ∧
    (∀ j tr t, (bestMatch used dbox tks).2 = some t → j < t → j ∉ used →
      tks.get? j = some tr → iou tr.bbox dbox < (bestMatch used dbox tks).1) := by
  have hbase : ScanInv used dbox tks 0 (0, none) := by
    refine ⟨le_refl 0, fun _ => rfl, ?_, ?_, ?_⟩
    · intro t ht; cases ht
    · intro j tr hj; omega
    · intro j tr t ht; cases ht
  have h := bestScan_inv used dbox tks tks 0 (0, none) (fun off => by simp) hbase
  rw [Nat.zero_add] at h
  obtain ⟨h0, hnone, hsome, hdom, hstrict⟩ := h
  refine ⟨h0, hnone, fun t ht => ⟨(hsome t ht).2.1, (hsome t ht).2.2⟩, ?_, hstrict⟩
  intro j tr hju hget
  have hj : j < tks.length := by
    by_contra hc
    rw [List.get?_eq_none.mpr (Nat.le_of_not_lt hc)] at hget
    cases hget
  exact hdom j tr hj hju hget

theorem maxOverlapFrom_nonneg (used : List ℕ) (dbox : Box) :
    ∀ (idx : ℕ) (rest : List Track), 0 ≤ maxOverlapFrom used dbox idx rest
  | _, [] => le_refl 0
  | idx, tr :: rest => by
    rw [maxOverlapFrom]
    split
    · exact maxOverlapFrom_nonneg used dbox (idx + 1) rest
    · exact le_trans (maxOverlapFrom_nonneg used dbox (idx + 1) rest) (le_max_right _ _)

/-- The running best of the inner scan equals the max of the accumulator
and the maximum overlap over the remaining unclaimed tracks. -/
theorem bestScan_fst (used : List ℕ) (dbox : Box) :
    ∀ (rest : List Track) (idx : ℕ) (acc : ℚ × Option ℕ), 0 ≤ acc.1 →
      (bestScan used dbox idx rest acc).1 =
        max acc.1 (maxOverlapFrom used dbox idx rest)
  | [], idx, acc, h0 => by
    rw [bestScan, maxOverlapFrom, max_eq_left h0]
  | tr :: rest, idx, acc, h0 => by
    rw [bestScan, maxOverlapFrom]
    by_cases hu : idx ∈ used
    · rw [if_pos hu, if_pos hu, bestScan_fst used dbox rest (idx + 1) acc h0]
    · rw [if_neg hu, if_neg hu]
      by_cases hlt : acc.1 < iou tr.bbox dbox
      · rw [if_pos hlt,
          bestScan_fst used dbox rest (idx + 1) _ (le_trans h0 (le_of_lt hlt))]
        exact (max_eq_right (le_trans (le_of_lt hlt) (le_max_left _ _))).symm
      · rw [if_neg hlt, bestScan_fst used dbox rest (idx + 1) acc h0, ← max_assoc,
          max_eq_left (not_lt.mp hlt)]

/-- The running best of the inner scan is exactly the maximum overlap over
the not-yet-claimed tracks (with the loop's floor `0.0`). -/
theorem bestMatch_fst_eq_maxOverlap (used : List ℕ) (dbox : Box) (tks : List Track) :
    (bestMatch used dbox tks).1 = maxOverlap tks used dbox := by
  rw [bestMatch, bestScan_fst used dbox tks 0 (0, none) (le_refl 0), maxOverlap]
  exact max_eq_right (maxOverlapFrom_nonneg used dbox 0 tks)

/-- Unfolding equations for `matchStep`. -/
theorem matchStep_of_none {tks : List Track} {uT uD : List ℕ} {i : ℕ} {d : Det}
    (mi alpha : ℚ) (h2 : (bestMatch uT d.bbox tks).2 = none) :
    matchStep mi alpha (tks, uT, uD) (i, d) = (tks, uT, uD) := by
  simp [matchStep, h2]

theorem matchStep_of_commit {tks : List Track} {uT uD : List ℕ} {i t : ℕ} {d : Det}
    {tr : Track} (mi alpha : ℚ) (h2 : (bestMatch uT d.bbox tks).2 = some t)
    (hmi : mi ≤ (bestMatch uT d.bbox tks).1) (hget : tks.get? t = some tr) :
    matchStep mi alpha (tks, uT, uD) (i, d) =
      (tks.set t (applyMatch alpha tr d), t :: uT, i :: uD) := by
  have hget2 : tks[t]? = some tr := by
    rw [← List.get?_eq_getElem?]; exact hget
  simp [matchStep, h2, hmi, hget2]

theorem matchStep_of_low {tks : List Track} {uT uD : List ℕ} {i t : ℕ} {d : Det}
    (mi alpha : ℚ) (h2 : (bestMatch uT d.bbox tks).2 = some t)
    (hmi : ¬ mi ≤ (bestMatch uT d.bbox tks).1) :
    matchStep mi alpha (tks, uT, uD) (i, d) = (tks, uT, uD) := by
  simp [matchStep, h2, hmi]

/-- The pairing of one sorted detection is committed (its index is added to
`used_det_indices`) exactly when the maximum overlap with a not-yet-claimed
track is strictly positive and at least `min_iou`. -/
theorem matchStep_commit_iff (mi alpha : ℚ) (tks : List Track) (uT uD : List ℕ)
    (i : ℕ) (d : Det) :
    (matchStep mi alpha (tks, uT, uD) (i, d)).2.2 ≠ uD ↔
      0 < maxOverlap tks uT d.bbox ∧ mi ≤ maxOverlap tks uT d.bbox := by
  obtain ⟨h0, hnone, hsome, hdom, _⟩ := bestMatch_spec uT d.bbox tks
  have hmo := bestMatch_fst_eq_maxOverlap uT d.bbox tks
  cases h2 : (bestMatch uT d.bbox tks).2 with
  | none =>
    have hz : (bestMatch uT d.bbox tks).1 = 0 := hnone h2
    rw [matchStep_of_none mi alpha h2]
    constructor
    · intro hc; exact absurd rfl hc
    · rintro ⟨hpos, -⟩
      rw [← hmo, hz] at hpos
      exact absurd hpos (lt_irrefl 0)
  | some t =>
    obtain ⟨hu, tr, hget, heq, hpos⟩ := hsome t h2
    by_cases hmi : mi ≤ (bestMatch uT d.bbox tks).1
    · rw [matchStep_of_commit mi alpha h2 hmi hget]
      constructor
      · intro _
        exact ⟨hmo ▸ hpos, hmo ▸ hmi⟩
      · intro _
        exact (List.cons_ne_self i uD)
    · rw [matchStep_of_low mi alpha h2 hmi]
      constructor
      · intro hc; exact absurd rfl hc
      · rintro ⟨-, hle⟩
        rw [← hmo] at hle
        exact absurd hle hmi

/-! Properties of the stable descending sort used on detections. -/

theorem sortDesc_perm (k : α → ℚ) (l : List α) : List.Perm (sortDesc k l) l :=
  List.perm_insertionSort _ l

theorem sortDesc_sorted (k : α → ℚ) (l : List α) :
    (sortDesc k l).Sorted fun a b => k b ≤ k a := by
  haveI : IsTotal α fun a b => k b ≤ k a := ⟨fun a b => le_total (k b) (k a)⟩
  haveI : IsTrans α fun a b => k b ≤ k a := ⟨fun _ _ _ hab hbc => le_trans hbc hab⟩
  exact List.sorted_insertionSort _ l


theorem StableKey.trans {k : α → ℚ} {a b c : ℕ × α}
    (hab : StableKey k a b) (hbc : StableKey k b c) : StableKey k a c := by
  rcases hab with h1 | ⟨h1, h1i⟩ <;> rcases hbc with h2 | ⟨h2, h2i⟩
  · exact Or.inl (lt_trans h2 h1)
  · exact Or.inl (h2 ▸ h1)
  · exact Or.inl (h1 ▸ h2)
  · exact Or.inr ⟨h1.trans h2, Nat.lt_trans h1i h2i⟩

theorem pairwise_orderedInsert_stable (k : α → ℚ) (a : ℕ × α) :
    ∀ l : List (ℕ × α), l.Pairwise (StableKey k) → (∀ b ∈ l, a.1 < b.1) →
      (List.orderedInsert (fun x y => k y.2 ≤ k x.2) a l).Pairwise (StableKey k)
  | [], _, _ => List.pairwise_singleton _ a
  | b :: t, hp, hidx => by
    rw [List.orderedInsert]
    obtain ⟨hb, ht⟩ := List.pairwise_cons.mp hp
    by_cases hr : k b.2 ≤ k a.2
    · rw [if_pos hr]
      refine List.pairwise_cons.mpr ⟨?_, hp⟩
      intro c hc
      have hab : StableKey k a b := by
        rcases lt_or_eq_of_le hr with h | h
        · exact Or.inl h
        · exact Or.inr ⟨h.symm, hidx b (List.mem_cons_self b t)⟩
      rcases List.mem_cons.mp hc with rfl | hct
      · exact hab
      · exact hab.trans (hb c hct)
    · rw [if_neg hr]
      refine List.pairwise_cons.mpr ⟨?_, ?_⟩
      · intro c hc
        rcases (List.mem_orderedInsert _).mp hc with rfl | hct
        · exact Or.inl (not_le.mp hr)
        · exact hb c hct
      · exact pairwise_orderedInsert_stable k a t ht
          fun c hc => hidx c (List.mem_cons_of_mem b hc)

theorem pairwise_insertionSort_stable (k : α → ℚ) :
    ∀ l : List (ℕ × α), l.Pairwise (fun a b => a.1 < b.1) →
      (List.insertionSort (fun x y => k y.2 ≤ k x.2) l).Pairwise (StableKey k)
  | [], _ => List.Pairwise.nil
  | a :: t, h => by
    rw [List.insertionSort]
    obtain ⟨ha, ht⟩ := List.pairwise_cons.mp h
    apply pairwise_orderedInsert_stable
    · exact pairwise_insertionSort_stable k t ht
    · intro b hb
      exact ha b ((List.mem_insertionSort _).mp hb)

/-- Stability of the detection sort: on the index-enumerated input the
result is ordered by strictly descending key, with equal keys kept in
their original input order. -/
theorem sortDesc_enum_stable (k : α → ℚ) (l : List α) :
    (sortDesc (fun p => k p.2) l.enum).Pairwise (StableKey k) := by
  apply pairwise_insertionSort_stable
  have h1 : (l.enum.map Prod.fst).Pairwise (· < ·) := by
    rw [List.enum_map_fst]
    exact List.pairwise_lt_range _
  exact List.pairwise_map.mp h1

/-- Sorting the enumerated list and projecting out the indices recovers the
sort of the plain list. -/
theorem sortDesc_enum_map_snd (k : α → ℚ) (l : List α) :
    (sortDesc (fun p => k p.2) l.enum).map Prod.snd = sortDesc k l := by
  rw [sortDesc, sortDesc]
  have h := List.map_insertionSort (fun x y : ℕ × α => k y.2 ≤ k x.2)
    (fun a b : α => k b ≤ k a) Prod.snd l.enum
    (fun a _ b _ => Iff.rfl)
  rw [h, List.enum_map_snd]

/-! Case analysis of one matching step and its consequences. -/

theorem matchStep_cases (mi alpha : ℚ) (tks : List Track) (uT uD : List ℕ)
    (i : ℕ) (d : Det) :
    matchStep mi alpha (tks, uT, uD) (i, d) = (tks, uT, uD) ∨
    ∃ t tr, tks.get? t = some tr ∧ t ∉ uT ∧
      matchStep mi alpha (tks, uT, uD) (i, d) =
        (tks.set t (applyMatch alpha tr d), t :: uT, i :: uD) := by
  obtain ⟨-, -, hsome, -, -⟩ := bestMatch_spec uT d.bbox tks
  cases h2 : (bestMatch uT d.bbox tks).2 with
  | none => exact Or.inl (matchStep_of_none mi alpha h2)
  | some t =>
    by_cases hmi : mi ≤ (bestMatch uT d.bbox tks).1
    · obtain ⟨hu, tr, hget, -, -⟩ := hsome t h2
      exact Or.inr ⟨t, tr, hget, hu, matchStep_of_commit mi alpha h2 hmi hget⟩
    · exact Or.inl (matchStep_of_low mi alpha h2 hmi)

theorem matchStep_usedT_mono (mi alpha : ℚ) (tks : List Track) (uT uD : List ℕ)
    (i : ℕ) (d : Det) :
    uT ⊆ (matchStep mi alpha (tks, uT, uD) (i, d)).2.1 := by
  rcases matchStep_cases mi alpha tks uT uD i d with h | ⟨t, tr, -, -, h⟩
  · rw [h]; exact fun _ hx => hx
  · rw [h]; exact fun _ hx => List.mem_cons_of_mem t hx

theorem matchStep_untouched (mi alpha : ℚ) (tks : List Track) (uT uD : List ℕ)
    (i : ℕ) (d : Det) (j : ℕ)
    (hj : j ∉ (matchStep mi alpha (tks, uT, uD) (i, d)).2.1) :
    (matchStep mi alpha (tks, uT, uD) (i, d)).1.get? j = tks.get? j := by
  rcases matchStep_cases mi alpha tks uT uD i d with h | ⟨t, tr, -, -, h⟩
  · rw [h]
  · rw [h]
    rw [h] at hj
    have hne : j ≠ t := fun hc => hj (hc ▸ List.mem_cons_self t uT)
    exact List.get?_set_ne _ _ (Ne.symm hne)

theorem matchStep_id (mi alpha : ℚ) (tks : List Track) (uT uD : List ℕ)
    (i : ℕ) (d : Det) (j : ℕ) :
    ((matchStep mi alpha (tks, uT, uD) (i, d)).1.get? j).map Track.id =
      (tks.get? j).map Track.id := by
  rcases matchStep_cases mi alpha tks uT uD i d with h | ⟨t, tr, hget, -, h⟩
  · rw [h]
  · rw [h]
    by_cases hj : j = t
    · subst hj
      rw [List.get?_set_eq, hget]
      rfl
    · rw [List.get?_set_ne _ _ (Ne.symm hj)]

theorem matchStep_length (mi alpha : ℚ) (tks : List Track) (uT uD : List ℕ)
    (i : ℕ) (d : Det) :
    (matchStep mi alpha (tks, uT, uD) (i, d)).1.length = tks.length := by
  rcases matchStep_cases mi alpha tks uT uD i d with h | ⟨t, tr, -, -, h⟩
  · rw [h]
  · rw [h]; exact List.length_set tks t _

/-! The same facts propagated through the whole matching loop. -/

theorem matchLoop_usedT_mono (mi alpha : ℚ) :
    ∀ (ds : List Det) (i : ℕ) (acc : List Track × List ℕ × List ℕ),
      acc.2.1 ⊆ (matchLoop mi alpha i ds acc).2.1
  | [], _, _ => fun _ h => h
  | d :: ds, i, acc => by
    obtain ⟨tks, uT, uD⟩ := acc
    rw [matchLoop]
    exact Set.Subset.trans (matchStep_usedT_mono mi alpha tks uT uD i d)
      (matchLoop_usedT_mono mi alpha ds (i + 1) _)

theorem matchLoop_untouched (mi alpha : ℚ) :
    ∀ (ds : List Det) (i : ℕ) (acc : List Track × List ℕ × List ℕ) (j : ℕ),
      j ∉ (matchLoop mi alpha i ds acc).2.1 →
      (matchLoop mi alpha i ds acc).1.get? j = acc.1.get? j
  | [], _, _, _, _ => rfl
  | d :: ds, i, acc, j, hj => by
    obtain ⟨tks, uT, uD⟩ := acc
    rw [matchLoop] at hj ⊢
    have hj2 : j ∉ (matchStep mi alpha (tks, uT, uD) (i, d)).2.1 := fun hc =>
      hj (matchLoop_usedT_mono mi alpha ds (i + 1) _ hc)
    have h1 := matchLoop_untouched mi alpha ds (i + 1) _ j hj
    rw [h1]
    exact matchStep_untouched mi alpha tks uT uD i d j hj2

theorem matchLoop_id (mi alpha : ℚ) :
    ∀ (ds : List Det) (i : ℕ) (acc : List Track × List ℕ × List ℕ) (j : ℕ),
      ((matchLoop mi alpha i ds acc).1.get? j).map Track.id =
        (acc.1.get? j).map Track.id
  | [], _, _, _ => rfl
  | d :: ds, i, acc, j => by
    obtain ⟨tks, uT, uD⟩ := acc
    rw [matchLoop]
    have h2 := matchStep_id mi alpha tks uT uD i d j
    have h1 := matchLoop_id mi alpha ds (i + 1) (matchStep mi alpha (tks, uT, uD) (i, d)) j
    rw [h1, h2]

theorem matchLoop_length (mi alpha : ℚ) :
    ∀ (ds : List Det) (i : ℕ) (acc : List Track × List ℕ × List ℕ),
      (matchLoop mi alpha i ds acc).1.length = acc.1.length
  | [], _, _ => rfl
  | d :: ds, i, acc => by
    obtain ⟨tks, uT, uD⟩ := acc
    rw [matchLoop]
    rw [matchLoop_length mi alpha ds (i + 1) _]
    exact matchStep_length mi alpha tks uT uD i d

theorem matchLoop_usedD_lb (mi alpha : ℚ) :
    ∀ (ds : List Det) (i : ℕ) (acc : List Track × List ℕ × List ℕ) (j : ℕ),
      j < i → j ∈ (matchLoop mi alpha i ds acc).2.2 → j ∈ acc.2.2
  | [], _, _, _, _, h => h
  | d :: ds, i, acc, j, hji, h => by
    obtain ⟨tks, uT, uD⟩ := acc
    rw [matchLoop] at h
    have h2 := matchLoop_usedD_lb mi alpha ds (i + 1) _ j (Nat.lt_succ_of_lt hji) h
    rcases matchStep_cases mi alpha tks uT uD i d with he | ⟨t, tr, -, -, he⟩
    · rw [he] at h2; exact h2
    · rw [he] at h2
      rcases List.mem_cons.mp h2 with rfl | h3
      · exact absurd hji (lt_irrefl _)
      · exact h3

/-! Degenerate boxes: zero overlap with everything, hence never matched. -/


theorem iou_zero_of_degenerate (b1 b2 : Box) (h : Degenerate b1 ∨ Degenerate b2) :
    iou b1 b2 = 0 := by
  have h0 : max 0 (min b1.x2 b2.x2 - max b1.x1 b2.x1) *
      max 0 (min b1.y2 b2.y2 - max b1.y1 b2.y1) ≤ 0 := by
    rcases h with h | h <;> rcases h with h | h
    · have hx : max (0:ℤ) (min b1.x2 b2.x2 - max b1.x1 b2.x1) = 0 := by omega
      rw [hx, zero_mul]
    · have hy : max (0:ℤ) (min b1.y2 b2.y2 - max b1.y1 b2.y1) = 0 := by omega
      rw [hy, mul_zero]
    · have hx : max (0:ℤ) (min b1.x2 b2.x2 - max b1.x1 b2.x1) = 0 := by omega
      rw [hx, zero_mul]
    · have hy : max (0:ℤ) (min b1.y2 b2.y2 - max b1.y1 b2.y1) = 0 := by omega
      rw [hy, mul_zero]
  simp only [iou]
  rw [if_pos h0]

theorem maxOverlapFrom_zero (used : List ℕ) (dbox : Box)
    (hzero : ∀ tr : Track, iou tr.bbox dbox = 0) :
    ∀ (idx : ℕ) (rest : List Track), maxOverlapFrom used dbox idx rest = 0
  | _, [] => rfl
  | idx, tr :: rest => by
    rw [maxOverlapFrom]
    split
    · exact maxOverlapFrom_zero used dbox hzero (idx + 1) rest
    · rw [hzero tr, maxOverlapFrom_zero used dbox hzero (idx + 1) rest, max_self]

theorem bestMatch_of_zero (used : List ℕ) (dbox : Box) (tks : List Track)
    (hzero : ∀ tr : Track, iou tr.bbox dbox = 0) :
    bestMatch used dbox tks = (0, none) := by
  obtain ⟨-, hnone, hsome, -, -⟩ := bestMatch_spec used dbox tks
  have h1 : (bestMatch used dbox tks).1 = 0 := by
    rw [bestMatch_fst_eq_maxOverlap, maxOverlap, maxOverlapFrom_zero used dbox hzero]
  cases h2 : (bestMatch used dbox tks).2 with
  | none =>
    have := hnone h2
    rw [Prod.ext_iff]
    exact ⟨h1, h2⟩
  | some t =>
    obtain ⟨-, tr, -, -, hpos⟩ := hsome t h2
    rw [h1] at hpos
    exact absurd hpos (lt_irrefl 0)

/-- A detection whose box is degenerate is matched into no track. -/
theorem matchStep_degenerate (mi alpha : ℚ) (tks : List Track) (uT uD : List ℕ)
    (i : ℕ) (d : Det) (hdeg : Degenerate d.bbox) :
    matchStep mi alpha (tks, uT, uD) (i, d) = (tks, uT, uD) := by
  apply matchStep_of_none
  rw [bestMatch_of_zero uT d.bbox tks
    fun tr => iou_zero_of_degenerate tr.bbox d.bbox (Or.inr hdeg)]

/-- Along the whole loop, the sorted slot of a degenerate detection is never
claimed. -/
theorem matchLoop_degenerate_not_usedD (mi alpha : ℚ) :
    ∀ (ds : List Det) (i : ℕ) (acc : List Track × List ℕ × List ℕ) (off : ℕ) (d : Det),
      ds.get? off = some d → Degenerate d.bbox → (i + off) ∉ acc.2.2 →
      (i + off) ∉ (matchLoop mi alpha i ds acc).2.2
  | [], _, _, off, d, hget, _, _ => by simp at hget
  | d0 :: ds, i, acc, off, d, hget, hdeg, hacc => by
    obtain ⟨tks, uT, uD⟩ := acc
    rw [matchLoop]
    cases off with
    | zero =>
      have hd : d0 = d := by simpa using hget
      subst hd
      rw [matchStep_degenerate mi alpha tks uT uD i d0 hdeg]
      intro hc
      exact hacc (matchLoop_usedD_lb mi alpha ds (i + 1) _ _ (by omega) hc)
    | succ off2 =>
      have hget2 : ds.get? off2 = some d := by simpa using hget
      have hstep : (i + (off2 + 1)) ∉ (matchStep mi alpha (tks, uT, uD) (i, d0)).2.2 := by
        rcases matchStep_cases mi alpha tks uT uD i d0 with he | ⟨t, tr, -, -, he⟩
        · rw [he]; exact hacc
        · rw [he]
          intro hc
          rcases List.mem_cons.mp hc with h3 | h3
          · omega
          · exact hacc h3
      have := matchLoop_degenerate_not_usedD mi alpha ds (i + 1) _ off2 d hget2 hdeg
        (by
          have hh : i + 1 + off2 = i + (off2 + 1) := by omega
          rw [hh]
          exact hstep)
      have hh : i + 1 + off2 = i + (off2 + 1) := by omega
      rw [hh] at this
      exact this

/-! The spawning loop: unmatched detections append fresh tracks with
consecutively allocated ids. -/

theorem spawnLoop_spec (u : List ℕ) :
    ∀ (ds : List Det) (i : ℕ) (acc : List Track × ℕ),
      ∃ ns : List Track,
        (spawnLoop u i ds acc).1 = acc.1 ++ ns ∧
        acc.2 ≤ (spawnLoop u i ds acc).2 ∧
        (∀ tr ∈ ns, acc.2 ≤ tr.id ∧ tr.id < (spawnLoop u i ds acc).2 ∧
          tr.time_since_update = 0 ∧ tr.age = 1) ∧
        (ns.map Track.id).Pairwise (· < ·)
  | [], i, acc => by
    refine ⟨[], by simp [spawnLoop], le_refl _, ?_, List.Pairwise.nil⟩
    intro tr htr
    simp at htr
  | d :: ds, i, acc => by
    rw [spawnLoop]
    by_cases hi : i ∈ u
    · rw [if_pos hi]
      exact spawnLoop_spec u ds (i + 1) acc
    · rw [if_neg hi]
      obtain ⟨ns, h1, h2, h3, h4⟩ :=
        spawnLoop_spec u ds (i + 1) (acc.1 ++ [newTrack acc.2 d], acc.2 + 1)
      refine ⟨newTrack acc.2 d :: ns, ?_, ?_, ?_, ?_⟩
      · rw [h1]
        simp
      · exact le_trans (Nat.le_succ _) h2
      · intro tr htr
        rcases List.mem_cons.mp htr with rfl | htr2
        · exact ⟨le_refl _, lt_of_lt_of_le (Nat.lt_succ_self _) h2, rfl, rfl⟩
        · obtain ⟨ha, hb, hc, hd2⟩ := h3 tr htr2
          exact ⟨le_trans (Nat.le_succ _) ha, hb, hc, hd2⟩
      · rw [List.map_cons]
        refine List.pairwise_cons.mpr ⟨?_, h4⟩
        intro b hb
        obtain ⟨tr, htr, rfl⟩ := List.mem_map.mp hb
        exact lt_of_lt_of_le (Nat.lt_succ_self _) (h3 tr htr).1

theorem spawnLoop_creates (u : List ℕ) :
    ∀ (ds : List Det) (i : ℕ) (acc : List Track × ℕ) (off : ℕ) (d : Det),
      ds.get? off = some d → (i + off) ∉ u →
      ∃ id, acc.2 ≤ id ∧ newTrack id d ∈ (spawnLoop u i ds acc).1
  | [], _, _, off, d, hget, _ => by simp at hget
  | d0 :: ds, i, acc, off, d, hget, hu => by
    rw [spawnLoop]
    cases off with
    | zero =>
      have hd : d0 = d := by simpa using hget
      subst hd
      rw [if_neg (by simpa using hu)]
      obtain ⟨ns, h1, -, -, -⟩ :=
        spawnLoop_spec u ds (i + 1) (acc.1 ++ [newTrack acc.2 d0], acc.2 + 1)
      refine ⟨acc.2, le_refl _, ?_⟩
      rw [h1]
      simp
    | succ off2 =>
      have hget2 : ds.get? off2 = some d := by simpa using hget
      have hu2 : (i + 1 + off2) ∉ u := by
        have hh : i + 1 + off2 = i + (off2 + 1) := by omega
        rw [hh]; exact hu
      by_cases hi : i ∈ u
      · rw [if_pos hi]
        exact spawnLoop_creates u ds (i + 1) acc off2 d hget2 hu2
      · rw [if_neg hi]
        obtain ⟨id, hle, hmem⟩ := spawnLoop_creates u ds (i + 1)
          (acc.1 ++ [newTrack acc.2 d0], acc.2 + 1) off2 d hget2 hu2
        exact ⟨id, le_trans (Nat.le_succ _) hle, hmem⟩

/-! Unfolding the two branches of `update`, and facts preserved by it. -/


theorem update_nil_eq (s : TrackerState) :
    update s [] =
      ({ s with tracks := ((s.tracks.map ageTrack).filter
            fun tr => tr.time_since_update ≤ s.max_age) },
        (s.tracks.map ageTrack).filter fun tr => tr.time_since_update ≤ s.max_age) := rfl

theorem update_ne_nil_eq (s : TrackerState) (dets : List Det) (h : dets ≠ []) :
    update s dets =
      ({ s with
          tracks := ((tickSpawn s dets).1.filter
            fun tr => tr.time_since_update ≤ s.max_age),
          next_id := (tickSpawn s dets).2 },
        (tickSpawn s dets).1.filter fun tr => tr.time_since_update ≤ s.max_age) := by
  cases dets with
  | nil => exact absurd rfl h
  | cons d0 rest => rfl

theorem matchedIdxs_ne_nil (s : TrackerState) (dets : List Det) (h : dets ≠ []) :
    matchedIdxs s dets = (tickMatch s dets).2.1 := by
  cases dets with
  | nil => exact absurd rfl h
  | cons d0 rest => rfl

theorem update_max_age (s : TrackerState) (dets : List Det) :
    (update s dets).1.max_age = s.max_age := by
  cases dets <;> rfl

theorem update_min_iou (s : TrackerState) (dets : List Det) :
    (update s dets).1.min_iou = s.min_iou := by
  cases dets <;> rfl

theorem update_smoothing (s : TrackerState) (dets : List Det) :
    (update s dets).1.smoothing = s.smoothing := by
  cases dets <;> rfl

theorem update_snd_eq_tracks (s : TrackerState) (dets : List Det) :
    (update s dets).2 = (update s dets).1.tracks := by
  cases dets <;> rfl

theorem update_next_id_mono (s : TrackerState) (dets : List Det) :
    s.next_id ≤ (update s dets).1.next_id := by
  cases dets with
  | nil => exact le_refl _
  | cons d0 rest =>
    rw [update_ne_nil_eq s (d0 :: rest) (by simp)]
    obtain ⟨ns, -, hle, -, -⟩ := spawnLoop_spec (tickMatch s (d0 :: rest)).2.2
      (sortDesc detKey (d0 :: rest)) 0 ((tickMatch s (d0 :: rest)).1, s.next_id)
    exact hle

theorem aged_ids : ∀ l : List Track, (l.map ageTrack).map Track.id = l.map Track.id
  | [] => rfl
  | a :: t => by
    simp only [List.map_cons, aged_ids t]
    rfl

/-- The matching phase permutes no tracks and changes no ids: positionally
the id lists agree. -/
theorem tickMatch_ids (s : TrackerState) (dets : List Det) :
    (tickMatch s dets).1.map Track.id = s.tracks.map Track.id := by
  apply List.ext
  intro j
  rw [List.get?_map, List.get?_map]
  have h := matchLoop_id s.min_iou s.smoothing (sortDesc detKey dets) 0
    (s.tracks.map ageTrack, [], []) j
  rw [tickMatch, h]
  rw [List.get?_map]
  cases s.tracks.get? j <;> rfl

/-- `update` preserves the id invariant. -/
theorem inv_update (s : TrackerState) (dets : List Det) (h : Inv s) :
    Inv (update s dets).1 := by
  obtain ⟨hpw, hbound⟩ := h
  cases dets with
  | nil =>
    rw [update_nil_eq]
    constructor
    · have hsub : List.Sublist ((s.tracks.map ageTrack).filter
            fun tr => tr.time_since_update ≤ s.max_age) (s.tracks.map ageTrack) :=
        List.filter_sublist _
      have h2 := hsub.map Track.id
      rw [aged_ids] at h2
      exact hpw.sublist h2
    · intro tr htr
      have h1 : tr ∈ s.tracks.map ageTrack := (List.mem_filter.mp htr).1
      obtain ⟨tr0, htr0, rfl⟩ := List.mem_map.mp h1
      exact hbound tr0 htr0
  | cons d0 rest =>
    rw [update_ne_nil_eq s (d0 :: rest) (by simp)]
    obtain ⟨ns, hsp1, hsple, hns, hnspw⟩ := spawnLoop_spec
      (tickMatch s (d0 :: rest)).2.2 (sortDesc detKey (d0 :: rest)) 0
      ((tickMatch s (d0 :: rest)).1, s.next_id)
    have h1 : (tickSpawn s (d0 :: rest)).1 = (tickMatch s (d0 :: rest)).1 ++ ns := hsp1
    have hmids := tickMatch_ids s (d0 :: rest)
    have hnle : s.next_id ≤ (tickSpawn s (d0 :: rest)).2 := hsple
    constructor
    · have hpw2 : ((tickSpawn s (d0 :: rest)).1.map Track.id).Pairwise (· < ·) := by
        rw [h1, List.map_append, List.pairwise_append]
        refine ⟨hmids ▸ hpw, hnspw, ?_⟩
        intro a ha b hb
        rw [hmids] at ha
        obtain ⟨tra, htra, rfl⟩ := List.mem_map.mp ha
        obtain ⟨trb, htrb, rfl⟩ := List.mem_map.mp hb
        exact lt_of_lt_of_le (hbound tra htra) (hns trb htrb).1
      have hsub : List.Sublist (((tickSpawn s (d0 :: rest)).1.filter
            fun tr => tr.time_since_update ≤ s.max_age).map Track.id)
          ((tickSpawn s (d0 :: rest)).1.map Track.id) :=
        (List.filter_sublist _).map Track.id
      exact hpw2.sublist hsub
    · intro tr htr
      have h2 : tr ∈ (tickSpawn s (d0 :: rest)).1 := (List.mem_filter.mp htr).1
      rw [h1] at h2
      rcases List.mem_append.mp h2 with h3 | h3
      · have h4 : tr.id ∈ (tickMatch s (d0 :: rest)).1.map Track.id :=
          List.mem_map_of_mem Track.id h3
        rw [hmids] at h4
        obtain ⟨tr0, htr0, hideq⟩ := List.mem_map.mp h4
        calc tr.id = tr0.id := hideq.symm
          _ < s.next_id := hbound tr0 htr0
          _ ≤ (tickSpawn s (d0 :: rest)).2 := hnle
      · exact (hns tr h3).2.1

/-- Any track surviving a tick either carries the id of a pre-tick track or
a freshly allocated one. -/
theorem update_mem_ids (s : TrackerState) (dets : List Det) (tr' : Track)
    (h : tr' ∈ (update s dets).1.tracks) :
    (∃ tr ∈ s.tracks, tr'.id = tr.id) ∨ s.next_id ≤ tr'.id := by
  cases dets with
  | nil =>
    rw [update_nil_eq] at h
    have h1 : tr' ∈ s.tracks.map ageTrack := (List.mem_filter.mp h).1
    obtain ⟨tr0, htr0, rfl⟩ := List.mem_map.mp h1
    exact Or.inl ⟨tr0, htr0, rfl⟩
  | cons d0 rest =>
    rw [update_ne_nil_eq s (d0 :: rest) (by simp)] at h
    obtain ⟨ns, hsp1, -, hns, -⟩ := spawnLoop_spec
      (tickMatch s (d0 :: rest)).2.2 (sortDesc detKey (d0 :: rest)) 0
      ((tickMatch s (d0 :: rest)).1, s.next_id)
    have h2 : tr' ∈ (tickSpawn s (d0 :: rest)).1 := (List.mem_filter.mp h).1
    have h1 : (tickSpawn s (d0 :: rest)).1 = (tickMatch s (d0 :: rest)).1 ++ ns := hsp1
    rw [h1] at h2
    rcases List.mem_append.mp h2 with h3 | h3
    · have h4 : tr'.id ∈ (tickMatch s (d0 :: rest)).1.map Track.id :=
        List.mem_map_of_mem Track.id h3
      rw [tickMatch_ids] at h4
      obtain ⟨tr0, htr0, hideq⟩ := List.mem_map.mp h4
      exact Or.inl ⟨tr0, htr0, hideq.symm⟩
    · exact Or.inr (hns tr' h3).1

/-! Following one track with a fixed id through ticks in which it is never
matched. -/

theorem ids_get_inj (l : List Track) (hpw : (l.map Track.id).Pairwise (· < ·))
    {j1 j2 : ℕ} {tr1 tr2 : Track} (h1 : l.get? j1 = some tr1) (h2 : l.get? j2 = some tr2)
    (hid : tr1.id = tr2.id) : j1 = j2 := by
  have key : ∀ (a b : ℕ) (ta tb : Track), a < b → l.get? a = some ta →
      l.get? b = some tb → ta.id < tb.id := by
    intro a b ta tb hab ha hb
    obtain ⟨hal, ha2⟩ := List.get?_eq_some.mp ha
    obtain ⟨hbl, hb2⟩ := List.get?_eq_some.mp hb
    have hpg := List.pairwise_iff_get.mp hpw
      ⟨a, by simpa using hal⟩ ⟨b, by simpa using hbl⟩ hab
    rw [List.get_map, List.get_map] at hpg
    rw [← ha2, ← hb2]
    exact hpg
  rcases Nat.lt_trichotomy j1 j2 with h | h | h
  · exact absurd hid (ne_of_lt (key j1 j2 tr1 tr2 h h1 h2))
  · exact h
  · exact absurd hid.symm (ne_of_lt (key j2 j1 tr2 tr1 h h2 h1))

theorem tick_unmatched (s : TrackerState) (ds : List Det) (i : ℕ) (tr0 : Track)
    (hInv : Inv s) (hmem : tr0 ∈ s.tracks) (hid : tr0.id = i)
    (hunm : i ∉ matchedIds s ds) :
    (tr0.time_since_update + 1 ≤ s.max_age →
      ∃ tr1 ∈ (update s ds).1.tracks, tr1.id = i ∧
        tr1.time_since_update = tr0.time_since_update + 1) ∧
    (s.max_age < tr0.time_since_update + 1 →
      ∀ tr1 ∈ (update s ds).1.tracks, tr1.id ≠ i) := by
  obtain ⟨hpw, hbound⟩ := hInv
  obtain ⟨j, hj⟩ := List.mem_iff_get?.mp hmem
  by_cases hds : ds = []
  · subst hds
    rw [update_nil_eq]
    constructor
    · intro hle
      refine ⟨ageTrack tr0, ?_, hid, rfl⟩
      exact List.mem_filter.mpr
        ⟨List.mem_map_of_mem ageTrack hmem, by simpa [ageTrack] using hle⟩
    · intro hgt tr1 htr1 hcid
      obtain ⟨htr1m, htr1f⟩ := List.mem_filter.mp htr1
      obtain ⟨tr2, htr2, rfl⟩ := List.mem_map.mp htr1m
      obtain ⟨j2, hj2⟩ := List.mem_iff_get?.mp htr2
      have hjj : j2 = j := ids_get_inj s.tracks hpw hj2 hj
        (by rw [hid, ← hcid]; rfl)
      subst hjj
      rw [hj] at hj2
      cases hj2
      have hle : tr0.time_since_update + 1 ≤ s.max_age := by
        simpa [ageTrack] using htr1f
      omega
  · rw [update_ne_nil_eq s ds hds]
    have hju : j ∉ (tickMatch s ds).2.1 := by
      intro hc
      apply hunm
      rw [matchedIds, matchedIdxs_ne_nil s ds hds]
      apply List.mem_filterMap.mpr
      exact ⟨j, hc, by rw [hj]; simp [hid]⟩
    have huntouched : (tickMatch s ds).1.get? j = (s.tracks.map ageTrack).get? j :=
      matchLoop_untouched s.min_iou s.smoothing (sortDesc detKey ds) 0
        (s.tracks.map ageTrack, [], []) j hju
    have haged : (s.tracks.map ageTrack).get? j = some (ageTrack tr0) := by
      rw [List.get?_map, hj]
      rfl
    obtain ⟨ns, hsp1, hsple, hns, -⟩ := spawnLoop_spec
      (tickMatch s ds).2.2 (sortDesc detKey ds) 0 ((tickMatch s ds).1, s.next_id)
    have h1 : (tickSpawn s ds).1 = (tickMatch s ds).1 ++ ns := hsp1
    have hmm : ageTrack tr0 ∈ (tickSpawn s ds).1 := by
      rw [h1]
      exact List.mem_append.mpr (Or.inl (List.get?_mem (huntouched.trans haged)))
    constructor
    · intro hle
      refine ⟨ageTrack tr0, ?_, hid, rfl⟩
      exact List.mem_filter.mpr ⟨hmm, by simpa [ageTrack] using hle⟩
    · intro hgt tr1 htr1 hcid
      obtain ⟨htr1m, htr1f⟩ := List.mem_filter.mp htr1
      rw [h1] at htr1m
      rcases List.mem_append.mp htr1m with h3 | h3
      · obtain ⟨j2, hj2⟩ := List.mem_iff_get?.mp h3
        have hidm := matchLoop_id s.min_iou s.smoothing (sortDesc detKey ds) 0
          (s.tracks.map ageTrack, [], []) j2
        have hidm2 : ((tickMatch s ds).1.get? j2).map Track.id =
            ((s.tracks.map ageTrack).get? j2).map Track.id := hidm
        rw [hj2, List.get?_map] at hidm2
        cases hj3 : s.tracks.get? j2 with
        | none => rw [hj3] at hidm2; cases hidm2
        | some tr2 =>
          rw [hj3] at hidm2
          have hid2 : tr1.id = tr2.id := by
            simpa [ageTrack] using hidm2
          have hjj : j2 = j := ids_get_inj s.tracks hpw hj3 hj
            (by rw [← hid2, hcid, hid])
          subst hjj
          rw [hj] at hj3
          cases hj3
          rw [huntouched, haged] at hj2
          cases hj2
          have hle2 : tr0.time_since_update + 1 ≤ s.max_age := by
            simpa [ageTrack] using htr1f
          omega
      · have hge := (hns tr1 h3).1
        have hlt : tr1.id < s.next_id := by
          rw [hcid, ← hid]
          exact hbound tr0 hmem
        omega

theorem tick_absent (s : TrackerState) (ds : List Det) (i : ℕ)
    (hb : i < s.next_id) (habs : ∀ tr ∈ s.tracks, tr.id ≠ i) :
    ∀ tr1 ∈ (update s ds).1.tracks, tr1.id ≠ i := by
  intro tr1 htr1 hcid
  rcases update_mem_ids s ds tr1 htr1 with ⟨tr, htr, hideq⟩ | hge
  · exact habs tr htr (by rw [← hideq, hcid])
  · omega

theorem runSeq_absent (i : ℕ) :
    ∀ (seqs : List (List Det)) (s : TrackerState), i < s.next_id →
      (∀ tr ∈ s.tracks, tr.id ≠ i) →
      ∀ tr ∈ (runSeq s seqs).tracks, tr.id ≠ i
  | [], _, _, habs => habs
  | ds :: rest, s, hb, habs =>
    runSeq_absent i rest (update s ds).1
      (lt_of_lt_of_le hb (update_next_id_mono s ds))
      (tick_absent s ds i hb habs)

theorem runSeq_unmatched (i : ℕ) :
    ∀ (seqs : List (List Det)) (s : TrackerState) (t0 : ℤ),
      Inv s → (∃ tr ∈ s.tracks, tr.id = i ∧ tr.time_since_update = t0) →
      t0 ≤ s.max_age → UnmatchedRun i s seqs →
      ((t0 + seqs.length ≤ s.max_age →
        ∃ tr ∈ (runSeq s seqs).tracks, tr.id = i ∧
          tr.time_since_update = t0 + seqs.length) ∧
       (s.max_age < t0 + seqs.length →
        ∀ tr ∈ (runSeq s seqs).tracks, tr.id ≠ i))
  | [], s, t0, _, hex, hle, _ => by
    constructor
    · intro _
      obtain ⟨tr, hmem, hid, htsu⟩ := hex
      exact ⟨tr, hmem, hid, by simpa using htsu⟩
    · intro hgt
      simp only [List.length_nil, Int.natCast_zero, add_zero] at hgt
      omega
  | ds :: rest, s, t0, hInv, hex, hle, hrun => by
    obtain ⟨tr0, hmem, hid, htsu⟩ := hex
    obtain ⟨hunm, hrun2⟩ := hrun
    have hma : (update s ds).1.max_age = s.max_age := update_max_age s ds
    have htick := tick_unmatched s ds i tr0 hInv hmem hid hunm
    by_cases hcase : t0 + 1 ≤ s.max_age
    · obtain ⟨tr1, htr1, hid1, htsu1⟩ := htick.1 (by rw [htsu]; exact hcase)
      have hrec := runSeq_unmatched i rest (update s ds).1 (t0 + 1)
        (inv_update s ds hInv)
        ⟨tr1, htr1, hid1, by rw [htsu1, htsu]⟩
        (by rw [hma]; exact hcase) hrun2
      constructor
      · intro hlen
        obtain ⟨tr, hmem2, hid2, htsu2⟩ := hrec.1
          (by rw [hma]; push_cast [List.length_cons] at hlen ⊢; omega)
        exact ⟨tr, hmem2, hid2, by
          rw [htsu2]; push_cast [List.length_cons]; omega⟩
      · intro hlen
        exact hrec.2 (by rw [hma]; push_cast [List.length_cons] at hlen ⊢; omega)
    · have habs1 : ∀ tr1 ∈ (update s ds).1.tracks, tr1.id ≠ i :=
        htick.2 (by omega)
      have hb : i < s.next_id := by
        rw [← hid]
        exact hInv.2 tr0 hmem
      have hb2 : i < (update s ds).1.next_id :=
        lt_of_lt_of_le hb (update_next_id_mono s ds)
      constructor
      · intro hlen
        push_cast [List.length_cons] at hlen
        omega
      · intro _
        exact runSeq_absent i rest (update s ds).1 hb2 habs1

theorem update_tsu_le (s : TrackerState) (dets : List Det) (tr : Track)
    (h : tr ∈ (update s dets).2) : tr.time_since_update ≤ s.max_age := by
  cases dets with
  | nil =>
    rw [update_nil_eq] at h
    simpa using (List.mem_filter.mp h).2
  | cons d0 rest =>
    rw [update_ne_nil_eq s (d0 :: rest) (by simp)] at h
    simpa using (List.mem_filter.mp h).2

theorem runSeq_inv : ∀ (seqs : List (List Det)) (s : TrackerState),
    Inv s → Inv (runSeq s seqs)
  | [], _, h => h
  | ds :: rest, s, h => runSeq_inv rest (update s ds).1 (inv_update s ds h)

/-! The claims. -/

/-- C3: every track returned by a tick satisfies
`time_since_update ≤ max_age`; a track last matched just before a run of
ticks in which it is never matched is present in the output through exactly
`max_age` such ticks (with `time_since_update` counting them) and absent
from the `(max_age + 1)`-th consecutive unmatched tick on — the pruning
condition is the strict `time_since_update > max_age`. -/
theorem C3_tsu_bound_and_pruning :
    (∀ (s : TrackerState) (dets : List Det) (tr : Track),
      tr ∈ (update s dets).2 → tr.time_since_update ≤ s.max_age) ∧
    (∀ (s : TrackerState) (i : ℕ) (seqs : List (List Det)),
      Inv s → 0 ≤ s.max_age →
      (∃ tr ∈ s.tracks, tr.id = i ∧ tr.time_since_update = 0) →
      UnmatchedRun i s seqs →
      (((seqs.length : ℤ) ≤ s.max_age →
        ∃ tr ∈ (runSeq s seqs).tracks, tr.id = i ∧
          tr.time_since_update = (seqs.length : ℤ)) ∧
       (s.max_age < (seqs.length : ℤ) →
        ∀ tr ∈ (runSeq s seqs).tracks, tr.id ≠ i))) := by
  constructor
  · exact update_tsu_le
  · intro s i seqs hInv hma hex hrun
    have h := runSeq_unmatched i seqs s 0 hInv hex hma hrun
    constructor
    · intro hlen
      obtain ⟨tr, hmem, hid, htsu⟩ := h.1 (by omega)
      exact ⟨tr, hmem, hid, by omega⟩
    · intro hlen
      exact h.2 (by omega)

theorem C3_witness :
    (∀ tr ∈ (runSeq wStateA [[], []]).tracks, tr.id ≠ 1) ∧
    (∃ tr ∈ (runSeq wStateA [[]]).tracks, tr.id = 1 ∧
      tr.time_since_update = ((1 : ℕ) : ℤ)) := by
  constructor
  · exact (C3_tsu_bound_and_pruning.2 wStateA 1 [[], []]
      (by with_unfolding_all decide) (by with_unfolding_all decide)
      (by with_unfolding_all decide) (by with_unfolding_all decide)).2
      (by with_unfolding_all decide)
  · have h := (C3_tsu_bound_and_pruning.2 wStateA 1 [[]]
      (by with_unfolding_all decide) (by with_unfolding_all decide)
      (by with_unfolding_all decide) (by with_unfolding_all decide)).1
      (by with_unfolding_all decide)
    simpa using h

/-- C5: within a session started by the constructor, the ids of the live
tracks are strictly increasing in creation order (list order) and below the
id counter; the counter never decreases across ticks; and a post-tick track
with an id below the pre-tick counter is a surviving pre-tick track, so a
pruned track's id is never reassigned. -/
theorem C5_ids_unique_monotone :
    (∀ (ma : ℤ) (mi sm : ℚ) (seqs : List (List Det)),
      ((runSeq (init ma mi sm) seqs).tracks.map Track.id).Pairwise (· < ·) ∧
      ∀ tr ∈ (runSeq (init ma mi sm) seqs).tracks,
        tr.id < (runSeq (init ma mi sm) seqs).next_id) ∧
    (∀ (s : TrackerState) (dets : List Det),
      s.next_id ≤ (update s dets).1.next_id) ∧
    (∀ (s : TrackerState) (dets : List Det) (tr' : Track),
      tr' ∈ (update s dets).1.tracks → tr'.id < s.next_id →
      ∃ tr ∈ s.tracks, tr'.id = tr.id) := by
  refine ⟨?_, update_next_id_mono, ?_⟩
  · intro ma mi sm seqs
    exact runSeq_inv seqs (init ma mi sm)
      ⟨List.Pairwise.nil, fun tr h => absurd h (List.not_mem_nil tr)⟩
  · intro s dets tr' hmem hlt
    rcases update_mem_ids s dets tr' hmem with h | h
    · exact h
    · omega

theorem C5_witness :
    (((runSeq (init 10 (3/10) (1/2))
        [[⟨⟨0, 0, 10, 10⟩, some "a", some 1⟩]]).tracks.map
      Track.id).Pairwise (· < ·)) ∧
    (∃ tr ∈ wStateB.tracks, wTrackAged.id = tr.id) := by
  constructor
  · exact (C5_ids_unique_monotone.1 10 (3/10) (1/2)
      [[⟨⟨0, 0, 10, 10⟩, some "a", some 1⟩]]).1
  · exact C5_ids_unique_monotone.2.2 wStateB [] wTrackAged
      (by with_unfolding_all decide) (by with_unfolding_all decide)

/-- C8: an empty tick performs only aging and pruning.  The returned tracks
are exactly the survivors, with `id`, `bbox`, `label` and `score` unchanged
and `age` and `time_since_update` incremented; the id counter does not move,
and a fresh engine returns the empty list. -/
theorem C8_empty_tick :
    (∀ (s : TrackerState) (tr' : Track),
      tr' ∈ (update s []).2 ↔
        ∃ tr ∈ s.tracks, tr.time_since_update + 1 ≤ s.max_age ∧
          tr'.id = tr.id ∧ tr'.bbox = tr.bbox ∧ tr'.label = tr.label ∧
          tr'.score = tr.score ∧ tr'.age = tr.age + 1 ∧
          tr'.time_since_update = tr.time_since_update + 1) ∧
    (∀ s : TrackerState, (update s []).1.next_id = s.next_id) ∧
    (∀ (ma : ℤ) (mi sm : ℚ), (update (init ma mi sm) []).2 = []) := by
  refine ⟨?_, fun s => rfl, fun ma mi sm => rfl⟩
  intro s tr'
  constructor
  · intro h
    rw [update_nil_eq] at h
    obtain ⟨hm, hf⟩ := List.mem_filter.mp h
    obtain ⟨tr, htr, rfl⟩ := List.mem_map.mp hm
    exact ⟨tr, htr, by simpa [ageTrack] using hf, rfl, rfl, rfl, rfl, rfl, rfl⟩
  · rintro ⟨tr, htr, hle, h1, h2, h3, h4, h5, h6⟩
    obtain ⟨i2, b2, l2, sc2, a2, t2⟩ := tr'
    simp only [] at h1 h2 h3 h4 h5 h6
    subst h1; subst h2; subst h3; subst h4; subst h5; subst h6
    rw [update_nil_eq]
    exact List.mem_filter.mpr
      ⟨List.mem_map_of_mem ageTrack htr, by simpa [ageTrack] using hle⟩

theorem C8_witness :
    ∃ tr ∈ wStateB.tracks, tr.time_since_update + 1 ≤ wStateB.max_age ∧
      wTrackAged.id = tr.id ∧ wTrackAged.bbox = tr.bbox ∧
      wTrackAged.label = tr.label ∧ wTrackAged.score = tr.score ∧
      wTrackAged.age = tr.age + 1 ∧
      wTrackAged.time_since_update = tr.time_since_update + 1 :=
  (C8_empty_tick.1 wStateB wTrackAged).mp (by with_unfolding_all decide)

/-- C9: a detection without a `label` or `score` key is accepted; at
creation the label defaults to `"object"` and the score to `0.0`, and on a
match the track's previous label and score are kept. -/
theorem C9_missing_label_score :
    (∀ (id : ℕ) (d : Det), d.label = none → (newTrack id d).label = "object") ∧
    (∀ (id : ℕ) (d : Det), d.score = none → (newTrack id d).score = 0) ∧
    (∀ (alpha : ℚ) (tr : Track) (d : Det), d.label = none →
      (applyMatch alpha tr d).label = tr.label) ∧
    (∀ (alpha : ℚ) (tr : Track) (d : Det), d.score = none →
      (applyMatch alpha tr d).score = tr.score) ∧
    (∀ (ma : ℤ) (mi sm : ℚ) (b : Box), 0 ≤ ma →
      ∃ tr ∈ (update (init ma mi sm) [⟨b, none, none⟩]).2,
        tr.label = "object" ∧ tr.score = 0 ∧ tr.bbox = b) := by
  refine ⟨?_, ?_, ?_, ?_, ?_⟩
  · intro id d h; simp [newTrack, h]
  · intro id d h; simp [newTrack, h]
  · intro alpha tr d h; simp [applyMatch, h]
  · intro alpha tr d h; simp [applyMatch, h]
  · intro ma mi sm b hma
    have ht : tickSpawn (init ma mi sm) [⟨b, none, none⟩] =
        ([newTrack 1 ⟨b, none, none⟩], 2) := rfl
    rw [update_ne_nil_eq (init ma mi sm) [⟨b, none, none⟩] (by simp), ht]
    refine ⟨newTrack 1 ⟨b, none, none⟩, ?_, rfl, rfl, rfl⟩
    exact List.mem_filter.mpr
      ⟨List.mem_cons_self _ _, by simpa [newTrack] using hma⟩

theorem C9_witness :
    ∃ tr ∈ (update (init 10 (3/10) (1/2)) [⟨⟨0, 0, 4, 4⟩, none, none⟩]).2,
      tr.label = "object" ∧ tr.score = 0 ∧ tr.bbox = ⟨0, 0, 4, 4⟩ :=
  C9_missing_label_score.2.2.2.2 10 (3/10) (1/2) ⟨0, 0, 4, 4⟩
    (by with_unfolding_all decide)

/-- C10: when the selected best track exists, it attains the maximum
overlap among the unclaimed tracks, and every unclaimed track at a lower
index has a strictly smaller overlap — on ties the lowest-index (earliest
created surviving) track wins, because only a strictly greater overlap
replaces the running best. -/
theorem C10_tie_lowest_index :
    ∀ (used : List ℕ) (dbox : Box) (tks : List Track) (t : ℕ),
      (bestMatch used dbox tks).2 = some t →
      t ∉ used ∧
      (∃ tr, tks.get? t = some tr ∧
        iou tr.bbox dbox = (bestMatch used dbox tks).1) ∧
      (∀ j tr, j ∉ used → tks.get? j = some tr →
        iou tr.bbox dbox ≤ (bestMatch used dbox tks).1) ∧
      (∀ j tr, j < t → j ∉ used → tks.get? j = some tr →
        iou tr.bbox dbox < (bestMatch used dbox tks).1) := by
  intro used dbox tks t h
  obtain ⟨-, -, hsome, hdom, hstrict⟩ := bestMatch_spec used dbox tks
  obtain ⟨hu, tr, hget, heq, -⟩ := hsome t h
  exact ⟨hu, ⟨tr, hget, heq⟩, hdom,
    fun j tr2 hjt hju hget2 => hstrict j tr2 t h hjt hju hget2⟩

theorem C10_witness :
    (0 ∉ ([] : List ℕ)) ∧
    ∃ tr, wTracksTie.get? 0 = some tr ∧
      iou tr.bbox ⟨0, 0, 10, 10⟩ = (bestMatch [] ⟨0, 0, 10, 10⟩ wTracksTie).1 := by
  have h := C10_tie_lowest_index [] ⟨0, 0, 10, 10⟩ wTracksTie 0
    (by with_unfolding_all decide)
  exact ⟨h.1, h.2.1⟩

/-- C6: a degenerate box has overlap `0.0` with every box; a detection
carrying one commits no pairing in any matching step, and (when `max_age`
is not negative) it always appears in the tick's output as a freshly
created track with a new id. -/
theorem C6_degenerate_isolated :
    (∀ b1 b2 : Box, Degenerate b1 ∨ Degenerate b2 → iou b1 b2 = 0) ∧
    (∀ (mi alpha : ℚ) (tks : List Track) (uT uD : List ℕ) (i : ℕ) (d : Det),
      Degenerate d.bbox → matchStep mi alpha (tks, uT, uD) (i, d) = (tks, uT, uD)) ∧
    (∀ (s : TrackerState) (dets : List Det) (d : Det),
      d ∈ dets → Degenerate d.bbox → 0 ≤ s.max_age →
      ∃ tr ∈ (update s dets).2, s.next_id ≤ tr.id ∧ tr.bbox = d.bbox ∧
        tr.age = 1 ∧ tr.time_since_update = 0) := by
  refine ⟨iou_zero_of_degenerate, ?_, ?_⟩
  · intro mi alpha tks uT uD i d hdeg
    exact matchStep_degenerate mi alpha tks uT uD i d hdeg
  · intro s dets d hmem hdeg hma
    have hne : dets ≠ [] := by
      intro hc
      subst hc
      exact (List.not_mem_nil d) hmem
    have hmem2 : d ∈ sortDesc detKey dets :=
      ((sortDesc_perm detKey dets).mem_iff).mpr hmem
    obtain ⟨off, hoff⟩ := List.mem_iff_get?.mp hmem2
    have hnotD : off ∉ (tickMatch s dets).2.2 := by
      have h := matchLoop_degenerate_not_usedD s.min_iou s.smoothing
        (sortDesc detKey dets) 0 (s.tracks.map ageTrack, [], []) off d hoff hdeg
        (by simp)
      simpa using h
    obtain ⟨id, hle, hmemS⟩ := spawnLoop_creates (tickMatch s dets).2.2
      (sortDesc detKey dets) 0 ((tickMatch s dets).1, s.next_id) off d hoff
      (by simpa using hnotD)
    rw [update_ne_nil_eq s dets hne]
    refine ⟨newTrack id d, ?_, hle, rfl, rfl, rfl⟩
    exact List.mem_filter.mpr ⟨hmemS, by simpa [newTrack] using hma⟩

theorem C6_witness :
    (iou ⟨5, 5, 5, 9⟩ ⟨0, 0, 10, 10⟩ = 0) ∧
    ∃ tr ∈ (update (init 10 (3/10) (1/2)) [⟨⟨5, 5, 5, 9⟩, none, none⟩]).2,
      (init 10 (3/10) (1/2)).next_id ≤ tr.id ∧ tr.bbox = ⟨5, 5, 5, 9⟩ ∧
      tr.age = 1 ∧ tr.time_since_update = 0 := by
  constructor
  · exact C6_degenerate_isolated.1 ⟨5, 5, 5, 9⟩ ⟨0, 0, 10, 10⟩
      (Or.inl (by with_unfolding_all decide))
  · exact C6_degenerate_isolated.2.2 (init 10 (3/10) (1/2))
      [⟨⟨5, 5, 5, 9⟩, none, none⟩] ⟨⟨5, 5, 5, 9⟩, none, none⟩
      (by with_unfolding_all decide) (by with_unfolding_all decide)
      (by with_unfolding_all decide)

/-- C1 as stated is false on the code: the smoothed box is truncated to
integers by `tuple(int(v) for v in smoothed.tolist())`, so with
`smoothing = 1/2`, old `x1 = 0` and detection `x1 = 1`, the stored `x1` is
`0` while `(1 − α)·old + α·new = 1/2`. -/
theorem C1_counterexample :
    (update cexStateC1 [cexDetC1]).2 =
      [⟨1, ⟨0, 0, 10, 10⟩, "obj", 9/10, 2, 0⟩] ∧
    (∀ tr ∈ (update cexStateC1 [cexDetC1]).2,
      ((tr.bbox.x1 : ℚ)) ≠
        (1 - cexStateC1.smoothing) * ((cexTrackC1.bbox.x1 : ℚ)) +
          cexStateC1.smoothing * ((cexDetC1.bbox.x1 : ℚ))) := by
  constructor
  · with_unfolding_all decide
  · with_unfolding_all decide

/-- C1 amended: a matched track's bbox is the componentwise
truncation-toward-zero of `(1 − α)·old_bbox + α·detection_bbox`; with
`smoothing = 1.0` it is exactly the detection's bbox and with
`smoothing = 0.0` it is unchanged. -/
theorem C1_truncated_blend :
    (∀ (mi alpha : ℚ) (tks : List Track) (uT uD : List ℕ) (i : ℕ) (d : Det) (j : ℕ),
      (matchStep mi alpha (tks, uT, uD) (i, d)).1.get? j = tks.get? j ∨
      ∃ tr, tks.get? j = some tr ∧
        (matchStep mi alpha (tks, uT, uD) (i, d)).1.get? j =
          some (applyMatch alpha tr d)) ∧
    (∀ (alpha : ℚ) (tr : Track) (d : Det),
      (applyMatch alpha tr d).bbox = blendBox alpha tr.bbox d.bbox ∧
      (applyMatch alpha tr d).time_since_update = 0) ∧
    (∀ (alpha : ℚ) (o n : Box),
      (blendBox alpha o n).x1 = truncQ ((1 - alpha) * (o.x1 : ℚ) + alpha * (n.x1 : ℚ)) ∧
      (blendBox alpha o n).y1 = truncQ ((1 - alpha) * (o.y1 : ℚ) + alpha * (n.y1 : ℚ)) ∧
      (blendBox alpha o n).x2 = truncQ ((1 - alpha) * (o.x2 : ℚ) + alpha * (n.x2 : ℚ)) ∧
      (blendBox alpha o n).y2 = truncQ ((1 - alpha) * (o.y2 : ℚ) + alpha * (n.y2 : ℚ))) ∧
    (∀ o n : Box, blendBox 1 o n = n) ∧
    (∀ o n : Box, blendBox 0 o n = o) := by
  refine ⟨?_, fun alpha tr d => ⟨rfl, rfl⟩,
    fun alpha o n => ⟨rfl, rfl, rfl, rfl⟩, blendBox_one, blendBox_zero⟩
  intro mi alpha tks uT uD i d j
  rcases matchStep_cases mi alpha tks uT uD i d with h | ⟨t, tr, hget, -, h⟩
  · rw [h]
    exact Or.inl rfl
  · rw [h]
    by_cases hj : j = t
    · subst hj
      rw [List.get?_set_eq, hget]
      exact Or.inr ⟨tr, rfl, rfl⟩
    · rw [List.get?_set_ne _ _ (Ne.symm hj)]
      exact Or.inl rfl

/-- C2 as stated is false on the code for the configuration `min_iou = 0`:
the maximum overlap of the detection with the (single, unclaimed) track is
`0 ≥ min_iou`, yet no pairing is committed — the loop keeps
`best_t_idx = None` unless some overlap is strictly positive — and the
detection spawns a second track. -/
theorem C2_counterexample :
    cexStateC2.min_iou ≤
      maxOverlap (cexStateC2.tracks.map ageTrack) [] cexDetC2.bbox ∧
    (tickMatch cexStateC2 [cexDetC2]).2.2 = [] ∧
    (update cexStateC2 [cexDetC2]).2.length = 2 := by
  refine ⟨?_, ?_, ?_⟩ <;> with_unfolding_all decide

/-- C2 amended: detections are processed in order of descending score with
ties in original input order (stable sort); each is compared against every
unclaimed track and the maximum overlap is selected; the pairing is
committed iff that maximum is both strictly positive and at least
`min_iou` (for `min_iou > 0` this is exactly the claim's `≥ min_iou`). -/
theorem C2_greedy_matching :
    (∀ l : List Det, List.Perm (sortDesc detKey l) l) ∧
    (∀ l : List Det, (sortDesc detKey l).Sorted fun a b => detKey b ≤ detKey a) ∧
    (∀ l : List Det,
      (sortDesc (fun p => detKey p.2) l.enum).Pairwise (StableKey detKey) ∧
      (sortDesc (fun p => detKey p.2) l.enum).map Prod.snd = sortDesc detKey l) ∧
    (∀ (uT : List ℕ) (dbox : Box) (tks : List Track),
      (bestMatch uT dbox tks).1 = maxOverlap tks uT dbox) ∧
    (∀ (uT : List ℕ) (dbox : Box) (tks : List Track) (t : ℕ),
      (bestMatch uT dbox tks).2 = some t →
      t ∉ uT ∧ ∃ tr, tks.get? t = some tr ∧
        iou tr.bbox dbox = maxOverlap tks uT dbox) ∧
    (∀ (mi alpha : ℚ) (tks : List Track) (uT uD : List ℕ) (i : ℕ) (d : Det),
      (matchStep mi alpha (tks, uT, uD) (i, d)).2.2 ≠ uD ↔
        0 < maxOverlap tks uT d.bbox ∧ mi ≤ maxOverlap tks uT d.bbox) := by
  refine ⟨sortDesc_perm detKey, sortDesc_sorted detKey,
    fun l => ⟨sortDesc_enum_stable detKey l, sortDesc_enum_map_snd detKey l⟩,
    bestMatch_fst_eq_maxOverlap, ?_, matchStep_commit_iff⟩
  intro uT dbox tks t h
  obtain ⟨-, -, hsome, -, -⟩ := bestMatch_spec uT dbox tks
  obtain ⟨hu, tr, hget, heq, -⟩ := hsome t h
  exact ⟨hu, tr, hget, by rw [heq, bestMatch_fst_eq_maxOverlap]⟩

theorem C2_witness :
    (matchStep (3/10) (1/2) (wTracksTie, [], [])
      (0, ⟨⟨0, 0, 10, 10⟩, none, none⟩)).2.2 ≠ [] :=
  (C2_greedy_matching.2.2.2.2.2 (3/10) (1/2) wTracksTie [] [] 0
    ⟨⟨0, 0, 10, 10⟩, none, none⟩).mpr (by with_unfolding_all decide)

/-- C4 as stated is false on the code: the sort key is the raw
`d.get("score", 0.0)`, so a detection with score `5.0` outranks one with
score `0.9`, while treating out-of-range scores as `0.0` would order them
the other way. -/
theorem C4_counterexample :
    sortDesc detKey [cexDetLow, cexDetHigh] = [cexDetHigh, cexDetLow] ∧
    sortDesc claimKey [cexDetLow, cexDetHigh] = [cexDetLow, cexDetHigh] := by
  constructor <;> with_unfolding_all decide

/-- C4 amended: scores are used as-is as ranking keys (a missing score key
defaults to `0.0`); out-of-range scores are never rejected and do not
disqualify a detection from matching. -/
theorem C4_raw_ranking :
    (∀ d : Det, d.score = none → detKey d = 0) ∧
    (∀ (d : Det) (q : ℚ), d.score = some q → detKey d = q) ∧
    (∀ l : List Det, List.Perm (sortDesc detKey l) l) ∧
    (∀ l : List Det, (sortDesc detKey l).Sorted fun a b => detKey b ≤ detKey a) ∧
    (∃ tr ∈ (update wStateB [wDetBig]).2, tr.id = 1 ∧ tr.score = 5) := by
  refine ⟨?_, ?_, sortDesc_perm detKey, sortDesc_sorted detKey, ?_⟩
  · intro d h; simp [detKey, h]
  · intro d q h; simp [detKey, h]
  · with_unfolding_all decide

theorem C4_witness : detKey wDetBig = 5 :=
  C4_raw_ranking.2.1 wDetBig 5 rfl

theorem parseDets_some : ∀ rdets : List RawDet, (∀ rd ∈ rdets, rd.bbox.isSome) →
    ∃ dets, parseDets rdets = some dets
  | [], _ => ⟨[], rfl⟩
  | rd :: rest, h => by
    obtain ⟨b, hb⟩ := Option.isSome_iff_exists.mp (h rd (List.mem_cons_self rd rest))
    obtain ⟨dets, hdets⟩ := parseDets_some rest
      fun x hx => h x (List.mem_cons_of_mem rd hx)
    refine ⟨⟨b, rd.label, rd.score⟩ :: dets, ?_⟩
    simp [parseDets, parseDet, hb, hdets]

/-- C7 as stated is false on the code: a detection dictionary without the
`"bbox"` key makes the tick raise `KeyError` — on a fresh engine the
detection is unmatched and `_new_track` evaluates `tuple(det["bbox"])`. -/
theorem C7_counterexample :
    updateE (init 10 (3/10) (1/2)) [⟨none, none, none⟩] = Except.error () := rfl

/-- C7 amended: for every detection list in which each detection carries a
bbox, a tick never raises, always terminates (`update` is a total
function) and returns a defined result. -/
theorem C7_no_error_with_bbox :
    ∀ (s : TrackerState) (rdets : List RawDet),
      (∀ rd ∈ rdets, rd.bbox.isSome) →
      ∃ dets, parseDets rdets = some dets ∧
        updateE s rdets = Except.ok (update s dets) := by
  intro s rdets h
  obtain ⟨dets, hdets⟩ := parseDets_some rdets h
  refine ⟨dets, hdets, ?_⟩
  simp [updateE, hdets]

theorem C7_witness :
    ∃ dets, parseDets ([⟨some ⟨0, 0, 1, 1⟩, none, none⟩] : List RawDet) =
        some dets ∧
      updateE (init 10 (3/10) (1/2)) [⟨some ⟨0, 0, 1, 1⟩, none, none⟩] =
        Except.ok (update (init 10 (3/10) (1/2)) dets) :=
  C7_no_error_with_bbox (init 10 (3/10) (1/2)) [⟨some ⟨0, 0, 1, 1⟩, none, none⟩]
    (by with_unfolding_all decide)

end Tracker
